import Mathlib

/-!
Verification of the cue-synthesis pipeline of `voxtral_subs.py`.

The embedding models the three core functions of the script —
`split_sentences`, `distribute_time` and `post_merge` — together with the
composition performed at the end of `transcribe_voxtral` (sentence
segmentation per chunk, proportional time allocation, then one
merge/split normalization pass over the concatenated cue list).

Modelling conventions:
* Python floats are modelled as rationals (`ℚ`); the script's arithmetic
  (`max`, `+`, `-`, `*`, `/`) is exact in this model.
* Python strings are modelled as `List Char`; `len`, slicing, `strip`,
  `split` and `join` are modelled character by character.  The whitespace
  set is the ASCII one (space, tab, newline, carriage return, vertical
  tab, form feed), which matches Python on the ASCII inputs considered.
* The two `regex` patterns used by `split_sentences` are modelled as
  explicit character-level scanners with the exact semantics of
  `re.split` on those patterns (leftmost match, greedy runs, delimiters
  removed from the parts).
-/

set_option maxRecDepth 8000

namespace Voxtral

/-- Python `\s` (ASCII range), as used by `strip`, `split` and the regexes. -/
def pyIsSpace (c : Char) : Bool :=
  c = ' ' || c = '\t' || c = '\n' || c = '\r' || c = '\x0b' || c = '\x0c'

/-- Sentence-ending punctuation `[.!?]` of `_SENT_SPLIT`. -/
def isSentPunct (c : Char) : Bool :=
  c = '.' || c = '!' || c = '?'

/-- Closing quote/bracket characters `["')\]]` of `_SENT_SPLIT`
(double quote, apostrophe, right parenthesis, right bracket). -/
def isCloser (c : Char) : Bool :=
  c = '"' || c = Char.ofNat 39 || c = ')' || c = ']'

/-- Remove the trailing run of characters satisfying `p` (helper for the
Python `strip`/`rstrip` family). -/
def dropTrailing (p : Char → Bool) (l : List Char) : List Char :=
  (List.dropWhile p l.reverse).reverse

/-- Python `str.strip()`: drop leading and trailing whitespace. -/
def pyStrip (l : List Char) : List Char :=
  dropTrailing pyIsSpace (List.dropWhile pyIsSpace l)

/-- State machine for `re.sub(r"\s+", " ", text)`: every maximal
whitespace run is replaced by a single space.  `prevSp` records whether
the previous character was part of a whitespace run. -/
def collapseAux (prevSp : Bool) : List Char → List Char
  | [] => []
  | c :: cs =>
    if pyIsSpace c then
      if prevSp then collapseAux true cs else ' ' :: collapseAux true cs
    else c :: collapseAux false cs

/-- Model of `re.sub(r"\s+", " ", text)` (line 60 of the script). -/
def collapseWS (l : List Char) : List Char := collapseAux false l

/-- Python `str.split()` (split on whitespace runs, dropping empties);
`cur` is the reversed word being accumulated. -/
def pySplitAux (cur : List Char) : List Char → List (List Char)
  | [] => if cur = [] then [] else [cur.reverse]
  | c :: cs =>
    if pyIsSpace c then
      if cur = [] then pySplitAux [] cs else cur.reverse :: pySplitAux [] cs
    else pySplitAux (c :: cur) cs

/-- Python `str.split()` with no arguments. -/
def pySplit (l : List Char) : List (List Char) := pySplitAux [] l

/-- Python `" ".join(words)`. -/
def joinSp : List (List Char) → List Char
  | [] => []
  | [w] => w
  | w :: x :: ws => w ++ ' ' :: joinSp (x :: ws)

/-- Character-level model of
`re.split(_SENT_SPLIT, text)` where
`_SENT_SPLIT = (?<=\S)(?:[.!?]+(?:["')\]]+)?)(?:\s+|$)`.

A delimiter match starts at a punctuation character preceded by a
non-space character, consumes a maximal `[.!?]+` run, then an optional
maximal closer run, and must then see whitespace (consumed greedily) or
the end of the input.  The matched delimiter is removed, splitting the
input into parts.  The scanner processes one character per step:
`mode 0` = ordinary scanning (`prevNS` = previous character exists and is
not whitespace, i.e. the lookbehind holds at the next position);
`mode 1` = inside a candidate punctuation run `pp`;
`mode 2` = inside the candidate's closer run `qq` (after `pp`);
`mode 3` = consuming the `\s+` tail of a confirmed delimiter.
`buf`, `pp`, `qq` are kept in reversed order.  If a candidate is
disproved (next character is not closer/space/end), no delimiter can
start inside the pending runs either — any suffix of the runs is followed
by the same non-matching character — so the pending text is flushed into
`buf` and scanning resumes. -/
def spGo (mode : Nat) (prevNS : Bool) (buf pp qq : List Char) :
    List Char → List (List Char)
  | [] =>
    -- at end of input a pending candidate matches via the `$` branch
    if mode = 1 || mode = 2 then [buf.reverse, []] else [buf.reverse]
  | c :: cs =>
    if mode = 0 then
      if isSentPunct c && prevNS then spGo 1 prevNS buf [c] [] cs
      else spGo 0 (!pyIsSpace c) (c :: buf) [] [] cs
    else if mode = 1 then
      if isSentPunct c then spGo 1 prevNS buf (c :: pp) [] cs
      else if isCloser c then spGo 2 prevNS buf pp [c] cs
      else if pyIsSpace c then buf.reverse :: spGo 3 false [] [] [] cs
      else spGo 0 true (c :: (pp ++ buf)) [] [] cs
    else if mode = 2 then
      if isCloser c then spGo 2 prevNS buf pp (c :: qq) cs
      else if pyIsSpace c then buf.reverse :: spGo 3 false [] [] [] cs
      else if isSentPunct c then spGo 1 true (qq ++ pp ++ buf) [c] [] cs
      else spGo 0 true (c :: (qq ++ pp ++ buf)) [] [] cs
    else
      if pyIsSpace c then spGo 3 false buf [] [] cs
      else spGo 0 true (c :: buf) [] [] cs

/-- Character-level model of the fallback
`re.split(r'(?<=[.!?])\s+', text)`: split at each maximal whitespace run
whose preceding character is `.`, `!` or `?`; the punctuation itself is
kept in the part.  `inSp` = currently consuming a delimiter's whitespace
run; `prevP` = previous character was sentence punctuation. -/
def fbGo (inSp : Bool) (prevP : Bool) (buf : List Char) :
    List Char → List (List Char)
  | [] => [buf.reverse]
  | c :: cs =>
    if inSp then
      if pyIsSpace c then fbGo true false [] cs
      else fbGo false (isSentPunct c) [c] cs
    else if pyIsSpace c && prevP then buf.reverse :: fbGo true false [] cs
    else fbGo false (isSentPunct c) (c :: buf) cs

/-- Greedy word wrap of one over-long fragment (lines 70–75 of the
script): `buf` is the list of words in the current line, `cur` the length
of `" ".join(buf)`.  Mirrors the Python loop exactly, including appending
`" ".join([])` (an empty string) when the very first word does not fit. -/
def wrapAux (max_chars : Nat) (buf : List (List Char)) (cur : Nat) :
    List (List Char) → List (List Char)
  | [] => if buf = [] then [] else [joinSp buf]
  | w :: ws =>
    let add := (if buf = [] then 0 else 1) + w.length
    if cur + add ≤ max_chars then wrapAux max_chars (buf ++ [w]) (cur + add) ws
    else joinSp buf :: wrapAux max_chars [w] w.length ws

/-- Model of `split_sentences(text, max_chars)` (lines 59–76): collapse
whitespace and trim; empty text gives no sentences; split with
`_SENT_SPLIT`, falling back to the looser pattern when at most one part
results; then per part: trim, drop empties, keep short parts whole and
word-wrap long ones. -/
def split_sentences (text : List Char) (max_chars : Nat) : List (List Char) :=
  let t := pyStrip (collapseWS text)
  if t = [] then []
  else
    let parts0 := spGo 0 false [] [] [] t
    let parts := if parts0.length ≤ 1 then fbGo false false [] t else parts0
    parts.flatMap (fun p0 =>
      let p := pyStrip p0
      if p = [] then []
      else if p.length ≤ max_chars then [p]
      else wrapAux max_chars [] 0 (pySplit p))

/-- A subtitle cue `{"start": _, "end": _, "text": _}`.  The script's
`end` field is called `stop` here because `end` is a Lean keyword.  The
same record shape is used for the raw chunks fed into the pipeline. -/
@[ext]
structure Cue where
  start : ℚ
  stop : ℚ
  text : List Char
deriving DecidableEq

/-- The cursor walk of `distribute_time` (lines 83–85): each sentence is
paired with its allocated duration; a cue runs from the cursor to the
cursor plus that duration. -/
def alloc (t : ℚ) : List (List Char × ℚ) → List Cue
  | [] => []
  | (txt, td) :: rest => ⟨t, t + td, txt⟩ :: alloc (t + td) rest

/-- Line 86 of the script: `segs[-1]["end"] = float(end_s)`. -/
def setLastStop (e : ℚ) : List Cue → List Cue
  | [] => []
  | [c] => [⟨c.start, e, c.text⟩]
  | c :: c2 :: rest => c :: setLastStop e (c2 :: rest)

/-- Model of `distribute_time(start_s, end_s, sentences)` (lines 78–87):
clamp the duration to a 0.2 s floor, weight each sentence by
`max(1, len(s))`, allocate `dur * weight / total` to each, walk a cursor
from `start_s`, and force the last cue's end to `end_s`. -/
def distribute_time (start_s end_s : ℚ) (sentences : List (List Char)) :
    List Cue :=
  let dur := max (1/5 : ℚ) (end_s - start_s)
  if sentences = [] then []
  else
    let weights := sentences.map (fun s => max 1 s.length)
    let total : ℚ := (weights.sum : ℕ)
    let times := weights.map (fun w : ℕ => dur * ((w : ℚ) / total))
    setLastStop end_s (alloc start_s (sentences.zip times))

/-- Absorption of a cue into its predecessor (line 95): extend the end
and append the text with a single space, then `strip`. -/
def absorbCue (p s : Cue) : Cue :=
  ⟨p.start, s.stop, pyStrip (p.text ++ ' ' :: s.text)⟩

/-- The merge loop of `post_merge` (lines 90–97) after its first
iteration: `prev` is the last element of the output list so far (the only
one the loop ever mutates). -/
def mergeAux (min_dur join_gap : ℚ) (prev : Cue) : List Cue → List Cue
  | [] => [prev]
  | seg :: rest =>
    if prev.stop - prev.start < min_dur ∧ seg.start - prev.stop ≤ join_gap then
      mergeAux min_dur join_gap (absorbCue prev seg) rest
    else prev :: mergeAux min_dur join_gap seg rest

/-- The merge pass of `post_merge` (lines 90–97). -/
def mergePass (min_dur join_gap : ℚ) : List Cue → List Cue
  | [] => []
  | seg :: rest => mergeAux min_dur join_gap seg rest

/-- The value of one merged run: the first cue of the run with every
later cue of the run absorbed into it, left to right. -/
def mergeRun1 : List Cue → Cue
  | [] => ⟨0, 0, []⟩
  | c :: cs => cs.foldl absorbCue c

/-- Break characters recognized by the split-point search (line 105).
The Python list is `[",", " ", "; ", ":"]`; its third element is the
two-character string `"; "`, and `text[i] in [...]` compares a
one-character string against each element, so that element can never
match — the set effectively recognized is comma, space and colon. -/
def isBreakChar (c : Char) : Bool :=
  c = ',' || c = ' ' || c = ':'

/-- The linear search of lines 103–106: scan `k` indices starting at `i`
and return the first whose character is a break character.  Indices are
always in range at call sites; the default character `x` is not a break
character. -/
def scanBreak (text : List Char) : Nat → Nat → Option Nat
  | _, 0 => none
  | i, k + 1 =>
    if isBreakChar (text.getD i 'x') then some i else scanBreak text (i + 1) k

/-- Characters stripped around the split point (line 108, `", "`). -/
def isCommaSpace (c : Char) : Bool := c = ',' || c = ' '

/-- Build the two halves of a split cue (lines 108–110): cut the text at
`i`, strip separators, time both halves at the temporal midpoint, and
emit only the non-empty halves. -/
def splitHalves (c : Cue) (i : Nat) : List Cue :=
  let midT := c.start + (c.stop - c.start) / 2
  let left := pyStrip (dropTrailing isCommaSpace (c.text.take i))
  let right := pyStrip ((c.text.drop i).dropWhile isCommaSpace)
  (if left = [] then [] else [⟨c.start, midT, left⟩]) ++
    (if right = [] then [] else [⟨midT, c.stop, right⟩])

/-- The per-cue body of the split loop (lines 99–110): cues within both
bounds pass through; otherwise search the window
`[max(1, mid_c - 15), min(len(text) - 1, mid_c + 15))` for a break
character, defaulting to the character midpoint `mid_c`. -/
def splitCue (max_dur : ℚ) (max_chars : Nat) (c : Cue) : List Cue :=
  if c.stop - c.start ≤ max_dur ∧ c.text.length ≤ max_chars then [c]
  else
    let midC := c.text.length / 2
    let lo := max 1 (midC - 15)
    let hi := min (c.text.length - 1) (midC + 15)
    splitHalves c ((scanBreak c.text lo (hi - lo)).getD midC)

/-- The split pass of `post_merge` (lines 98–111). -/
def splitPass (max_dur : ℚ) (max_chars : Nat) (l : List Cue) : List Cue :=
  l.flatMap (splitCue max_dur max_chars)

/-- Model of `post_merge(segments, min_dur, max_dur, join_gap, max_chars)`
(lines 89–111): the merge pass followed by the split pass. -/
def post_merge (segments : List Cue) (min_dur max_dur join_gap : ℚ)
    (max_chars : Nat) : List Cue :=
  splitPass max_dur max_chars (mergePass min_dur join_gap segments)

/-- The cue-synthesis composition at the end of `transcribe_voxtral`
(lines 194–199): segment each chunk's text, distribute the chunk's time
window over the sentences, concatenate across chunks, and normalize once.
A chunk with no sentences contributes nothing (`distribute_time` returns
`[]` on an empty sentence list, matching the `continue`).  `post_merge`
is called there without `join_gap`, so the default `0.25` applies. -/
def transcribe_pipeline (chunks : List Cue) (min_dur max_dur : ℚ)
    (max_chars : Nat) : List Cue :=
  post_merge
    (chunks.flatMap (fun ch =>
      distribute_time ch.start ch.stop (split_sentences ch.text max_chars)))
    min_dur max_dur (1/4) max_chars

/-- Modelled from the spec: the break-character set the specification
(§4.4) claims for the split-point search — comma, space, semicolon, or
colon.  Used only to compare the code's behaviour against the spec's
description. -/
def isBreakCharSpec (c : Char) : Bool :=
  c = ',' || c = ' ' || c = ';' || c = ':'

/-- Modelled from the spec: the split-point search with the spec's
claimed break-character set. -/
def scanBreakSpec (text : List Char) : Nat → Nat → Option Nat
  | _, 0 => none
  | i, k + 1 =>
    if isBreakCharSpec (text.getD i 'x') then some i
    else scanBreakSpec text (i + 1) k

/-- Modelled from the spec: the per-cue split with the spec's claimed
break-character set; otherwise identical to `splitCue`. -/
def splitCueSpec (max_dur : ℚ) (max_chars : Nat) (c : Cue) : List Cue :=
  if c.stop - c.start ≤ max_dur ∧ c.text.length ≤ max_chars then [c]
  else
    let midC := c.text.length / 2
    let lo := max 1 (midC - 15)
    let hi := min (c.text.length - 1) (midC + 15)
    splitHalves c ((scanBreakSpec c.text lo (hi - lo)).getD midC)

/-! Helper lemmas about the Python string primitives. -/

theorem dropWhile_head_false {p : Char → Bool} :
    ∀ {l : List Char} {c : Char}, (List.dropWhile p l).head? = some c → p c = false := by
  intro l
  induction l with
  | nil => intro c h; simp [List.dropWhile] at h
  | cons a t ih =>
    intro c h
    rw [List.dropWhile_cons] at h
    split at h
    · exact ih h
    · next hpa =>
      simp only [List.head?_cons, Option.some.injEq] at h
      subst h
      exact Bool.not_eq_true _ ▸ (by simpa using hpa)

theorem length_dropWhile_le (p : Char → Bool) :
    ∀ l : List Char, (List.dropWhile p l).length ≤ l.length := by
  intro l
  induction l with
  | nil => simp [List.dropWhile]
  | cons a t ih =>
    rw [List.dropWhile_cons]
    split
    · exact le_trans ih (by simp)
    · simp

theorem length_dropTrailing_le (p : Char → Bool) (l : List Char) :
    (dropTrailing p l).length ≤ l.length := by
  unfold dropTrailing
  rw [List.length_reverse]
  calc (List.dropWhile p l.reverse).length ≤ l.reverse.length :=
        length_dropWhile_le p l.reverse
    _ = l.length := List.length_reverse l

theorem dropWhile_eq_self_of_head {p : Char → Bool} {l : List Char}
    (h : ∀ c, l.head? = some c → p c = false) : List.dropWhile p l = l := by
  cases l with
  | nil => rfl
  | cons a t => rw [List.dropWhile_cons, if_neg (by simp [h a rfl])]

theorem dropTrailing_eq_self_of_getLast {p : Char → Bool} {l : List Char}
    (h : ∀ c, l.getLast? = some c → p c = false) : dropTrailing p l = l := by
  unfold dropTrailing
  rw [dropWhile_eq_self_of_head (fun c hc => h c (by rwa [List.head?_reverse] at hc)),
    List.reverse_reverse]

theorem pyStrip_eq_self {l : List Char}
    (hh : ∀ c, l.head? = some c → pyIsSpace c = false)
    (hl : ∀ c, l.getLast? = some c → pyIsSpace c = false) : pyStrip l = l := by
  unfold pyStrip
  rw [dropWhile_eq_self_of_head hh]
  exact dropTrailing_eq_self_of_getLast hl

theorem head_false_of_pyStrip {l : List Char} (h : pyStrip l = l) :
    ∀ c, l.head? = some c → pyIsSpace c = false := by
  intro c hc
  cases l with
  | nil => simp at hc
  | cons a t =>
    have hac : a = c := by simpa using hc
    subst hac
    by_contra hcontra
    have hsp : pyIsSpace a = true := by
      cases hq : pyIsSpace a
      · exact absurd hq hcontra
      · rfl
    have hlen : (pyStrip (a :: t)).length ≤ t.length := by
      unfold pyStrip
      rw [List.dropWhile_cons, if_pos (by simp [hsp])]
      exact le_trans (length_dropTrailing_le _ _) (length_dropWhile_le _ _)
    rw [h] at hlen
    simp at hlen

theorem dropWhile_eq_self_of_length {p : Char → Bool} {l : List Char}
    (h : (List.dropWhile p l).length = l.length) : List.dropWhile p l = l := by
  cases l with
  | nil => rfl
  | cons a t =>
    rw [List.dropWhile_cons]
    rw [List.dropWhile_cons] at h
    split
    · next hpa =>
      rw [if_pos hpa] at h
      have := length_dropWhile_le p t
      simp at h
      omega
    · rfl

theorem getLast_false_of_pyStrip {l : List Char} (h : pyStrip l = l) :
    ∀ c, l.getLast? = some c → pyIsSpace c = false := by
  intro c hc
  have h1 : List.dropWhile pyIsSpace l = l := by
    apply dropWhile_eq_self_of_length
    have hle1 := length_dropTrailing_le pyIsSpace (List.dropWhile pyIsSpace l)
    have hle2 := length_dropWhile_le pyIsSpace l
    have : (pyStrip l).length = l.length := by rw [h]
    unfold pyStrip at this
    omega
  have h2 : dropTrailing pyIsSpace l = l := by
    have := h
    unfold pyStrip at this
    rwa [h1] at this
  have h3 : List.dropWhile pyIsSpace l.reverse = l.reverse := by
    have := congrArg List.reverse h2
    unfold dropTrailing at this
    rwa [List.reverse_reverse] at this
  have h4 : (List.dropWhile pyIsSpace l.reverse).head? = some c := by
    rw [h3, List.head?_reverse]
    exact hc
  exact dropWhile_head_false h4

theorem dropWhile_exists_prefix (p : Char → Bool) :
    ∀ l : List Char, ∃ t, l = t ++ List.dropWhile p l := by
  intro l
  induction l with
  | nil => exact ⟨[], rfl⟩
  | cons a l ih =>
    rw [List.dropWhile_cons]
    split
    · obtain ⟨t, ht⟩ := ih
      exact ⟨a :: t, by rw [List.cons_append, ← ht]⟩
    · exact ⟨[], rfl⟩

theorem pyStrip_head_false {l : List Char} {c : Char}
    (h : (pyStrip l).head? = some c) : pyIsSpace c = false := by
  have hne : pyStrip l ≠ [] := by
    intro hnil; rw [hnil] at h; simp at h
  obtain ⟨t, ht⟩ := dropWhile_exists_prefix pyIsSpace
    (List.dropWhile pyIsSpace l).reverse
  have hsplit : List.dropWhile pyIsSpace l = pyStrip l ++ t.reverse := by
    have := congrArg List.reverse ht
    rw [List.reverse_reverse, List.reverse_append] at this
    exact this
  apply dropWhile_head_false (l := l)
  rw [hsplit, List.head?_append_of_ne_nil _ hne]
  exact h

theorem pyStrip_getLast_false {l : List Char} {c : Char}
    (h : (pyStrip l).getLast? = some c) : pyIsSpace c = false := by
  have h' : (List.dropWhile pyIsSpace (List.dropWhile pyIsSpace l).reverse).head? =
      some c := by
    rw [← List.getLast?_reverse]
    exact h
  exact dropWhile_head_false h'

theorem pyStrip_trimmed (l : List Char) : pyStrip (pyStrip l) = pyStrip l :=
  pyStrip_eq_self (fun _ => pyStrip_head_false) (fun _ => pyStrip_getLast_false)

theorem pyStrip_append_single {a b : List Char} (ha : a ≠ [])
    (hta : pyStrip a = a) (hb : b ≠ []) (htb : pyStrip b = b) :
    pyStrip (a ++ ' ' :: b) = a ++ ' ' :: b := by
  apply pyStrip_eq_self
  · intro c hc
    rw [List.head?_append_of_ne_nil _ ha] at hc
    exact head_false_of_pyStrip hta c hc
  · intro c hc
    rw [List.getLast?_append_of_ne_nil _ (by simp)] at hc
    obtain ⟨d, b', hb'⟩ := List.exists_cons_of_ne_nil hb
    rw [hb', List.getLast?_cons_cons, ← hb'] at hc
    exact getLast_false_of_pyStrip htb c hc

theorem mem_of_mem_getLast? {l : List Char} {c : Char}
    (h : l.getLast? = some c) : c ∈ l := by
  obtain ⟨hne, hc⟩ := List.mem_getLast?_eq_getLast (Option.mem_def.mpr h)
  rw [hc]
  exact List.getLast_mem hne

theorem trimmed_of_all_nonspace {l : List Char}
    (h : ∀ c ∈ l, pyIsSpace c = false) : pyStrip l = l :=
  pyStrip_eq_self (fun c hc => h c (List.mem_of_mem_head? (Option.mem_def.mpr hc)))
    (fun c hc => h c (mem_of_mem_getLast? hc))

/-! Helper lemmas about `joinSp` (the model of Python `" ".join`). -/

theorem joinSp_ne_nil {w : List Char} (hw : w ≠ []) :
    ∀ ws : List (List Char), joinSp (w :: ws) ≠ [] := by
  intro ws
  cases ws with
  | nil => exact hw
  | cons x ws' => exact List.append_ne_nil_of_left_ne_nil hw _

theorem joinSp_head? {w : List Char} (hw : w ≠ []) :
    ∀ ws : List (List Char), (joinSp (w :: ws)).head? = w.head? := by
  intro ws
  cases ws with
  | nil => rfl
  | cons x ws' => exact List.head?_append_of_ne_nil _ hw

theorem joinSp_getLast?_mem :
    ∀ (ws : List (List Char)) (w : List Char), (∀ u ∈ w :: ws, u ≠ []) →
      ∃ u ∈ w :: ws, (joinSp (w :: ws)).getLast? = u.getLast? := by
  intro ws
  induction ws with
  | nil => intro w _; exact ⟨w, by simp, rfl⟩
  | cons x ws' ih =>
    intro w hu
    obtain ⟨u, hu1, hu2⟩ := ih x (fun v hv => hu v (List.mem_cons_of_mem _ hv))
    refine ⟨u, List.mem_cons_of_mem _ hu1, ?_⟩
    show (w ++ ' ' :: joinSp (x :: ws')).getLast? = u.getLast?
    rw [List.getLast?_append_of_ne_nil _ (by simp)]
    have hj : joinSp (x :: ws') ≠ [] :=
      joinSp_ne_nil (hu x (List.mem_cons_of_mem _ (List.mem_cons_self _ _))) ws'
    obtain ⟨d, j', hj'⟩ := List.exists_cons_of_ne_nil hj
    rw [hj', List.getLast?_cons_cons, ← hj']
    exact hu2

theorem joinSp_all_trimmed :
    ∀ ws : List (List Char),
      (∀ u ∈ ws, u ≠ [] ∧ ∀ c ∈ u, pyIsSpace c = false) →
      pyStrip (joinSp ws) = joinSp ws := by
  intro ws h
  cases ws with
  | nil => rfl
  | cons w ws' =>
    apply pyStrip_eq_self
    · intro c hc
      rw [joinSp_head? (h w (List.mem_cons_self _ _)).1] at hc
      exact (h w (List.mem_cons_self _ _)).2 c
        (List.mem_of_mem_head? (Option.mem_def.mpr hc))
    · intro c hc
      obtain ⟨u, hu1, hu2⟩ := joinSp_getLast?_mem ws' w (fun v hv => (h v hv).1)
      rw [hu2] at hc
      exact (h u hu1).2 c (mem_of_mem_getLast? hc)

theorem joinSp_length_append :
    ∀ (buf : List (List Char)) (w : List Char),
      (joinSp (buf ++ [w])).length =
        (joinSp buf).length + ((if buf = [] then 0 else 1) + w.length) := by
  intro buf
  induction buf with
  | nil => intro w; simp [joinSp]
  | cons x buf' ih =>
    intro w
    cases buf' with
    | nil =>
      simp only [List.nil_append, List.singleton_append]
      show (x ++ ' ' :: w).length = x.length + _
      simp [joinSp]
      omega
    | cons y buf'' =>
      have : ((x :: y :: buf'') ++ [w]) = x :: ((y :: buf'') ++ [w]) := by simp
      rw [this]
      have hcons : (y :: buf'') ++ [w] = y :: (buf'' ++ [w]) := by simp
      show (x ++ ' ' :: joinSp ((y :: buf'') ++ [w])).length =
        (x ++ ' ' :: joinSp (y :: buf'')).length + _
      rw [List.length_append, List.length_cons, ih w]
      simp only [List.length_append, List.length_cons]
      have hne : (y :: buf'') ≠ [] := by simp
      rw [if_neg hne]
      simp
      omega

theorem joinSp_glue :
    ∀ (L : List (List Char)) (a b : List Char),
      joinSp ((a ++ ' ' :: b) :: L) = joinSp (a :: b :: L) := by
  intro L a b
  cases L with
  | nil => rfl
  | cons z L' =>
    show (a ++ ' ' :: b) ++ ' ' :: joinSp (z :: L') =
      a ++ ' ' :: (b ++ ' ' :: joinSp (z :: L'))
    simp [List.append_assoc]

/-! Helper lemmas about `pySplit` and the word wrap of `split_sentences`. -/

theorem pySplitAux_mem :
    ∀ (l : List Char) (cur : List Char),
      (∀ c ∈ cur, pyIsSpace c = false) →
      ∀ w ∈ pySplitAux cur l, w ≠ [] ∧ ∀ c ∈ w, pyIsSpace c = false := by
  intro l
  induction l with
  | nil =>
    intro cur hcur w hw
    simp only [pySplitAux] at hw
    split at hw
    · simp at hw
    · next hne =>
      have hwc : w = cur.reverse := by simpa using hw
      subst hwc
      exact ⟨by simpa using hne, fun c hc => hcur c (List.mem_reverse.mp hc)⟩
  | cons a cs ih =>
    intro cur hcur w hw
    simp only [pySplitAux] at hw
    split at hw
    · split at hw
      · exact ih [] (by simp) w hw
      · next hne =>
        rcases List.mem_cons.mp hw with hwc | hwt
        · subst hwc
          exact ⟨by simpa using hne, fun c hc => hcur c (List.mem_reverse.mp hc)⟩
        · exact ih [] (by simp) w hwt
    · next hnsp =>
      refine ih (a :: cur) ?_ w hw
      intro c hc
      rcases List.mem_cons.mp hc with hca | hcc
      · subst hca
        cases hq : pyIsSpace c
        · rfl
        · exact absurd hq (by simpa using hnsp)
      · exact hcur c hcc

theorem wrapEmitOk (mc : Nat) (buf : List (List Char))
    (hbuf : ∀ w ∈ buf, w ≠ [] ∧ ∀ c ∈ w, pyIsSpace c = false)
    (hlen : buf.length ≤ 1 ∨ (joinSp buf).length ≤ mc) :
    pyStrip (joinSp buf) = joinSp buf ∧
      ((joinSp buf).length ≤ mc ∨ ∀ c ∈ joinSp buf, pyIsSpace c = false) := by
  refine ⟨joinSp_all_trimmed buf hbuf, ?_⟩
  rcases hlen with hlen | hlen
  · cases buf with
    | nil => left; simp [joinSp]
    | cons w buf' =>
      cases buf' with
      | nil => right; intro c hc; exact (hbuf w (by simp)).2 c hc
      | cons x buf'' => simp at hlen
  · left; exact hlen

theorem wrapAux_mem :
    ∀ (ws : List (List Char)) (buf : List (List Char)) (cur mc : Nat),
      (∀ w ∈ ws, w ≠ [] ∧ ∀ c ∈ w, pyIsSpace c = false) →
      (∀ w ∈ buf, w ≠ [] ∧ ∀ c ∈ w, pyIsSpace c = false) →
      cur = (joinSp buf).length →
      (buf.length ≤ 1 ∨ cur ≤ mc) →
      ∀ s ∈ wrapAux mc buf cur ws,
        pyStrip s = s ∧ (s.length ≤ mc ∨ ∀ c ∈ s, pyIsSpace c = false) := by
  intro ws
  induction ws with
  | nil =>
    intro buf cur mc _ hbuf hcur hinv s hs
    simp only [wrapAux] at hs
    split at hs
    · simp at hs
    · have hsb : s = joinSp buf := by simpa using hs
      subst hsb
      exact wrapEmitOk mc buf hbuf (by rw [← hcur]; exact hinv)
  | cons w ws' ih =>
    intro buf cur mc hws hbuf hcur hinv s hs
    simp only [wrapAux] at hs
    by_cases hfit : cur + ((if buf = [] then 0 else 1) + w.length) ≤ mc
    · rw [if_pos hfit] at hs
      refine ih (buf ++ [w]) _ mc (fun v hv => hws v (List.mem_cons_of_mem _ hv))
        ?_ ?_ (Or.inr hfit) s hs
      · intro v hv
        rcases List.mem_append.mp hv with hv | hv
        · exact hbuf v hv
        · have : v = w := by simpa using hv
          subst this
          exact hws v (List.mem_cons_self _ _)
      · rw [joinSp_length_append, ← hcur]
    · rw [if_neg hfit] at hs
      rcases List.mem_cons.mp hs with hsb | hst
      · subst hsb
        exact wrapEmitOk mc buf hbuf (by rw [← hcur]; exact hinv)
      · refine ih [w] w.length mc (fun v hv => hws v (List.mem_cons_of_mem _ hv))
          ?_ (by simp [joinSp]) (Or.inl (by simp)) s hst
        intro v hv
        have : v = w := by simpa using hv
        subst this
        exact hws v (List.mem_cons_self _ _)

/-! Helper lemmas about `alloc`, `setLastStop` and `distribute_time`. -/

theorem alloc_chain_eq :
    ∀ (ps : List (List Char × ℚ)) (t : ℚ),
      List.Chain' (fun a b => b.start = a.stop) (alloc t ps) := by
  intro ps
  induction ps with
  | nil => intro t; simp [alloc]
  | cons x ps' ih =>
    intro t
    obtain ⟨txt, td⟩ := x
    show List.Chain' _ (⟨t, t + td, txt⟩ :: alloc (t + td) ps')
    refine List.chain'_cons'.mpr ⟨?_, ih (t + td)⟩
    intro y hy
    cases ps' with
    | nil => simp [alloc] at hy
    | cons q qs =>
      obtain ⟨txt2, td2⟩ := q
      have hy2 : (⟨t + td, t + td + td2, txt2⟩ : Cue) = y := by
        simpa [alloc] using hy
      rw [← hy2]

theorem setLastStop_head?_start :
    ∀ (l : List Cue) (e : ℚ),
      ((setLastStop e l).head?).map Cue.start = (l.head?).map Cue.start := by
  intro l e
  cases l with
  | nil => rfl
  | cons c rest =>
    cases rest with
    | nil => rfl
    | cons c2 r => rfl

theorem setLastStop_chain_eq :
    ∀ (l : List Cue) (e : ℚ),
      List.Chain' (fun a b => b.start = a.stop) l →
      List.Chain' (fun a b => b.start = a.stop) (setLastStop e l) := by
  intro l
  induction l with
  | nil => intro e _; simp [setLastStop]
  | cons c rest ih =>
    intro e h
    cases rest with
    | nil => simp [setLastStop]
    | cons c2 r =>
      show List.Chain' _ (c :: setLastStop e (c2 :: r))
      obtain ⟨h1, h2⟩ := List.chain'_cons'.mp h
      refine List.chain'_cons'.mpr ⟨?_, ih e h2⟩
      intro y hy
      have hmap := setLastStop_head?_start (c2 :: r) e
      rw [Option.mem_def.mp hy] at hmap
      have hstart : y.start = c2.start := by simpa using hmap
      rw [hstart]
      exact h1 c2 rfl

theorem setLastStop_ne_nil :
    ∀ (l : List Cue), l ≠ [] → ∀ e, setLastStop e l ≠ [] := by
  intro l hl e
  cases l with
  | nil => exact absurd rfl hl
  | cons c rest =>
    cases rest with
    | nil => simp [setLastStop]
    | cons c2 r => simp [setLastStop]

theorem setLastStop_getLast?_stop :
    ∀ (l : List Cue), l ≠ [] → ∀ e, ((setLastStop e l).getLast?).map Cue.stop = some e := by
  intro l
  induction l with
  | nil => intro h; exact absurd rfl h
  | cons c rest ih =>
    intro _ e
    cases rest with
    | nil => rfl
    | cons c2 r =>
      show ((c :: setLastStop e (c2 :: r)).getLast?).map Cue.stop = some e
      have hne : setLastStop e (c2 :: r) ≠ [] := setLastStop_ne_nil _ (by simp) e
      obtain ⟨d, M', hM⟩ := List.exists_cons_of_ne_nil hne
      rw [hM, List.getLast?_cons_cons, ← hM]
      exact ih (by simp) e

theorem setLastStop_mem :
    ∀ (l : List Cue) (c : Cue) (e : ℚ), c ∈ setLastStop e l →
      c ∈ l ∨ ∃ c₀ ∈ l, c = ⟨c₀.start, e, c₀.text⟩ := by
  intro l
  induction l with
  | nil => intro c e h; simp [setLastStop] at h
  | cons c1 rest ih =>
    intro c e h
    cases rest with
    | nil =>
      have : c = ⟨c1.start, e, c1.text⟩ := by simpa [setLastStop] using h
      exact Or.inr ⟨c1, List.mem_cons_self _ _, this⟩
    | cons c2 r =>
      rcases List.mem_cons.mp h with hc | hc
      · exact Or.inl (hc ▸ List.mem_cons_self _ _)
      · rcases ih c e hc with hc' | ⟨c₀, hc₀, hce⟩
        · exact Or.inl (List.mem_cons_of_mem _ hc')
        · exact Or.inr ⟨c₀, List.mem_cons_of_mem _ hc₀, hce⟩

theorem allocBounds :
    ∀ (ps : List (List Char × ℚ)) (t : ℚ),
      (∀ p ∈ ps, 0 ≤ p.2) →
      ∀ c ∈ alloc t ps,
        t ≤ c.start ∧ c.start ≤ c.stop ∧ c.stop ≤ t + (ps.map Prod.snd).sum := by
  intro ps
  induction ps with
  | nil => intro t _ c hc; simp [alloc] at hc
  | cons x ps' ih =>
    intro t h0 c hc
    obtain ⟨txt, td⟩ := x
    have htd : 0 ≤ td := h0 (txt, td) (List.mem_cons_self _ _)
    have hsum : 0 ≤ (ps'.map Prod.snd).sum := by
      apply List.sum_nonneg
      intro x hx
      obtain ⟨p, hp, hpx⟩ := List.mem_map.mp hx
      rw [← hpx]
      exact h0 p (List.mem_cons_of_mem _ hp)
    have hmap : ((( txt, td) :: ps').map Prod.snd).sum = td + (ps'.map Prod.snd).sum := by
      simp
    rcases List.mem_cons.mp hc with hch | hct
    · subst hch
      refine ⟨le_refl t, by simpa using htd, ?_⟩
      rw [hmap]
      simp only
      linarith
    · obtain ⟨ha, hb, hcc⟩ := ih (t + td) (fun p hp => h0 p (List.mem_cons_of_mem _ hp)) c hct
      rw [hmap]
      refine ⟨by linarith, hb, by linarith⟩

theorem sum_times :
    ∀ (ws : List ℕ) (dur total : ℚ),
      ((ws.map (fun w : ℕ => dur * ((w : ℚ) / total))).sum) =
        dur * (((ws.sum : ℕ) : ℚ) / total) := by
  intro ws dur total
  induction ws with
  | nil => simp
  | cons w ws' ih =>
    rw [List.map_cons, List.sum_cons, ih, List.sum_cons, Nat.cast_add]
    ring

theorem distribute_time_cons (s e : ℚ) (x : List Char) (xs : List (List Char)) :
    distribute_time s e (x :: xs) =
      setLastStop e (alloc s ((x :: xs).zip
        (((x :: xs).map (fun u => max 1 u.length)).map
          (fun w : ℕ => max (1/5 : ℚ) (e - s) *
            ((w : ℚ) / ((((x :: xs).map (fun u => max 1 u.length)).sum : ℕ) : ℚ)))))) :=
  rfl

theorem distribute_head_start :
    ∀ (s e : ℚ) (sents : List (List Char)), sents ≠ [] →
      ((distribute_time s e sents).head?).map Cue.start = some s := by
  intro s e sents hne
  cases sents with
  | nil => exact absurd rfl hne
  | cons x xs =>
    rw [distribute_time_cons, setLastStop_head?_start]
    simp [alloc, List.zip_cons_cons]

theorem distribute_chain_eq :
    ∀ (s e : ℚ) (sents : List (List Char)),
      List.Chain' (fun a b => b.start = a.stop) (distribute_time s e sents) := by
  intro s e sents
  cases sents with
  | nil => simp [distribute_time]
  | cons x xs =>
    exact setLastStop_chain_eq _ e (alloc_chain_eq _ s)

theorem distribute_getLast_stop :
    ∀ (s e : ℚ) (sents : List (List Char)), sents ≠ [] →
      ((distribute_time s e sents).getLast?).map Cue.stop = some e := by
  intro s e sents hne
  cases sents with
  | nil => exact absurd rfl hne
  | cons x xs =>
    rw [distribute_time_cons]
    apply setLastStop_getLast?_stop
    simp [alloc, List.zip_cons_cons]

theorem distribute_mem_bounds :
    ∀ (s e : ℚ) (sents : List (List Char)), (1/5 : ℚ) ≤ e - s →
      ∀ c ∈ distribute_time s e sents,
        s ≤ c.start ∧ c.start ≤ c.stop ∧ c.stop ≤ e := by
  intro s e sents hwin c hc
  cases sents with
  | nil => simp [distribute_time] at hc
  | cons x xs =>
    have hdur : max (1/5 : ℚ) (e - s) = e - s := max_eq_right hwin
    rw [distribute_time_cons] at hc
    have hWpos : 1 ≤ ((x :: xs).map (fun u => max 1 u.length)).sum := by
      simp only [List.map_cons, List.sum_cons]
      have : 1 ≤ max 1 x.length := le_max_left _ _
      omega
    have htotalpos :
        (0 : ℚ) < ((((x :: xs).map (fun u => max 1 u.length)).sum : ℕ) : ℚ) := by
      exact_mod_cast Nat.lt_of_lt_of_le Nat.zero_lt_one hWpos
    have htimes_nonneg : ∀ p ∈ (x :: xs).zip
        (((x :: xs).map (fun u => max 1 u.length)).map
          (fun w : ℕ => max (1/5 : ℚ) (e - s) *
            ((w : ℚ) / ((((x :: xs).map (fun u => max 1 u.length)).sum : ℕ) : ℚ)))),
        0 ≤ p.2 := by
      intro p hp
      have hp2 := (List.of_mem_zip hp).2
      obtain ⟨w, _, hw⟩ := List.mem_map.mp hp2
      rw [← hw]
      have h1 : (0 : ℚ) ≤ max (1/5 : ℚ) (e - s) :=
        le_trans (by norm_num) (le_max_left _ _)
      have h2 : (0 : ℚ) ≤ (w : ℚ) /
          ((((x :: xs).map (fun u => max 1 u.length)).sum : ℕ) : ℚ) :=
        div_nonneg (Nat.cast_nonneg w) (le_of_lt htotalpos)
      exact mul_nonneg h1 h2
    have hlen : (((x :: xs).map (fun u => max 1 u.length)).map
        (fun w : ℕ => max (1/5 : ℚ) (e - s) *
          ((w : ℚ) / ((((x :: xs).map (fun u => max 1 u.length)).sum : ℕ) : ℚ)))).length ≤
        (x :: xs).length := by
      simp
    have hsum : (((x :: xs).zip
        (((x :: xs).map (fun u => max 1 u.length)).map
          (fun w : ℕ => max (1/5 : ℚ) (e - s) *
            ((w : ℚ) / ((((x :: xs).map (fun u => max 1 u.length)).sum : ℕ) : ℚ))))).map
          Prod.snd).sum = e - s := by
      rw [List.map_snd_zip _ _ hlen, sum_times, hdur]
      rw [div_self (ne_of_gt htotalpos), mul_one]
    rcases setLastStop_mem _ c e hc with hmem | ⟨c₀, hc₀, hce⟩
    · obtain ⟨h1, h2, h3⟩ := allocBounds _ s htimes_nonneg c hmem
      rw [hsum] at h3
      exact ⟨h1, h2, by linarith⟩
    · obtain ⟨h1, h2, h3⟩ := allocBounds _ s htimes_nonneg c₀ hc₀
      rw [hsum] at h3
      rw [hce]
      refine ⟨by simpa using h1, ?_, by simp⟩
      show c₀.start ≤ e
      linarith

/-! Helper lemmas about the merge pass. -/

theorem mergeAux_head_start (md jg : ℚ) :
    ∀ (l : List Cue) (p : Cue),
      ((mergeAux md jg p l).head?).map Cue.start = some p.start := by
  intro l
  induction l with
  | nil => intro p; rfl
  | cons seg rest ih =>
    intro p
    show ((if p.stop - p.start < md ∧ seg.start - p.stop ≤ jg then
      mergeAux md jg (absorbCue p seg) rest
      else p :: mergeAux md jg seg rest).head?).map Cue.start = some p.start
    split
    · rw [ih (absorbCue p seg)]
      rfl
    · rfl

theorem mergeAux_length (md jg : ℚ) :
    ∀ (l : List Cue) (p : Cue), (mergeAux md jg p l).length ≤ l.length + 1 := by
  intro l
  induction l with
  | nil => intro p; simp [mergeAux]
  | cons seg rest ih =>
    intro p
    show (if p.stop - p.start < md ∧ seg.start - p.stop ≤ jg then
      mergeAux md jg (absorbCue p seg) rest
      else p :: mergeAux md jg seg rest).length ≤ rest.length + 1 + 1
    split
    · exact le_trans (ih (absorbCue p seg)) (by omega)
    · have := ih seg
      simp only [List.length_cons]
      omega

theorem mergeAux_runs (md jg : ℚ) :
    ∀ (l : List Cue) (p : Cue),
      ∃ (ext : List Cue) (runs : List (List Cue)),
        l = ext ++ runs.flatten ∧ (∀ r ∈ runs, r ≠ []) ∧
        mergeAux md jg p l = mergeRun1 (p :: ext) :: runs.map mergeRun1 := by
  intro l
  induction l with
  | nil =>
    intro p
    exact ⟨[], [], by simp, by simp, rfl⟩
  | cons seg rest ih =>
    intro p
    show ∃ (ext : List Cue) (runs : List (List Cue)), _ ∧ _ ∧
      (if p.stop - p.start < md ∧ seg.start - p.stop ≤ jg then
        mergeAux md jg (absorbCue p seg) rest
        else p :: mergeAux md jg seg rest) = _
    split
    · obtain ⟨ext', runs', he, hne, heq⟩ := ih (absorbCue p seg)
      refine ⟨seg :: ext', runs', by simp [he], hne, ?_⟩
      rw [heq]
      rfl
    · obtain ⟨ext', runs', he, hne, heq⟩ := ih seg
      refine ⟨[], (seg :: ext') :: runs', by simp [he], ?_, ?_⟩
      · intro r hr
        rcases List.mem_cons.mp hr with hr | hr
        · rw [hr]; simp
        · exact hne r hr
      · rw [heq]
        rfl

theorem mergePass_runs (md jg : ℚ) (segs : List Cue) :
    ∃ runs : List (List Cue), (∀ r ∈ runs, r ≠ []) ∧ runs.flatten = segs ∧
      mergePass md jg segs = runs.map mergeRun1 := by
  cases segs with
  | nil => exact ⟨[], by simp, by simp, rfl⟩
  | cons seg rest =>
    obtain ⟨ext, runs', he, hne, heq⟩ := mergeAux_runs md jg rest seg
    refine ⟨(seg :: ext) :: runs', ?_, by simp [he], ?_⟩
    · intro r hr
      rcases List.mem_cons.mp hr with hr | hr
      · rw [hr]; simp
      · exact hne r hr
    · show mergeAux md jg seg rest = _
      rw [heq]
      rfl

theorem foldl_absorb_start :
    ∀ (cs : List Cue) (c : Cue), (cs.foldl absorbCue c).start = c.start := by
  intro cs
  induction cs with
  | nil => intro c; rfl
  | cons s cs' ih =>
    intro c
    rw [List.foldl_cons, ih (absorbCue c s)]
    rfl

theorem foldl_absorb_stop :
    ∀ (cs : List Cue) (c : Cue), (cs.foldl absorbCue c).stop = (cs.getLastD c).stop := by
  intro cs
  induction cs with
  | nil => intro c; rfl
  | cons s cs' ih =>
    intro c
    rw [List.foldl_cons, ih (absorbCue c s), List.getLastD_cons]
    cases cs' with
    | nil => rfl
    | cons a l => rw [List.getLastD_cons, List.getLastD_cons]

theorem foldl_absorb_text :
    ∀ (cs : List Cue) (c : Cue),
      c.text ≠ [] → pyStrip c.text = c.text →
      (∀ x ∈ cs, x.text ≠ [] ∧ pyStrip x.text = x.text) →
      (cs.foldl absorbCue c).text = joinSp ((c :: cs).map Cue.text) := by
  intro cs
  induction cs with
  | nil => intro c _ _ _; rfl
  | cons s cs' ih =>
    intro c hc1 hc2 hcs
    have hs := hcs s (List.mem_cons_self _ _)
    have habs : (absorbCue c s).text = c.text ++ ' ' :: s.text :=
      pyStrip_append_single hc1 hc2 hs.1 hs.2
    rw [List.foldl_cons,
      ih (absorbCue c s)
        (by rw [habs]; exact List.append_ne_nil_of_left_ne_nil hc1 _)
        (by rw [habs, ← habs]; show pyStrip (absorbCue c s).text = _
            rw [habs]
            exact pyStrip_append_single hc1 hc2 hs.1 hs.2)
        (fun x hx => hcs x (List.mem_cons_of_mem _ hx))]
    rw [List.map_cons, List.map_cons, List.map_cons, habs, joinSp_glue]

theorem runs_length_le_flatten :
    ∀ (runs : List (List Cue)), (∀ r ∈ runs, r ≠ []) →
      runs.length ≤ runs.flatten.length := by
  intro runs
  induction runs with
  | nil => intro _; simp
  | cons r runs' ih =>
    intro h
    rw [List.flatten_cons, List.length_append, List.length_cons]
    have hr : r ≠ [] := h r (List.mem_cons_self _ _)
    have : 1 ≤ r.length := by
      cases r with
      | nil => exact absurd rfl hr
      | cons a l => simp
    have := ih (fun v hv => h v (List.mem_cons_of_mem _ hv))
    omega

theorem chain_of_flatten {R : Cue → Cue → Prop} :
    ∀ (L : List (List Cue)), List.Chain' R L.flatten →
      ∀ r ∈ L, List.Chain' R r := by
  intro L
  induction L with
  | nil => intro _ r hr; simp at hr
  | cons l L' ih =>
    intro h r hr
    rw [List.flatten_cons] at h
    obtain ⟨h1, h2, _⟩ := List.chain'_append.mp h
    rcases List.mem_cons.mp hr with hr | hr
    · rw [hr]; exact h1
    · exact ih h2 r hr

theorem chainLastD :
    ∀ (cs : List Cue) (c : Cue),
      List.Chain' (fun a b => a.stop ≤ b.start) (c :: cs) →
      (∀ x ∈ c :: cs, x.start ≤ x.stop) →
      c.stop ≤ (cs.getLastD c).stop := by
  intro cs
  induction cs with
  | nil => intro c _ _; exact le_refl _
  | cons s cs' ih =>
    intro c hch hval
    obtain ⟨h1, h2⟩ := List.chain'_cons'.mp hch
    have hcstop : c.stop ≤ s.start := h1 s rfl
    have hsval : s.start ≤ s.stop := hval s (List.mem_cons_of_mem _ (List.mem_cons_self _ _))
    have := ih s h2 (fun x hx => hval x (List.mem_cons_of_mem _ hx))
    rw [List.getLastD_cons]
    exact le_trans (le_trans hcstop hsval) this

/-! Helper lemmas about the split pass. -/

theorem splitHalves_mem_shape :
    ∀ (c : Cue) (i : Nat) (x : Cue), x ∈ splitHalves c i →
      (x.start = c.start ∧ x.stop = c.start + (c.stop - c.start) / 2) ∨
        (x.start = c.start + (c.stop - c.start) / 2 ∧ x.stop = c.stop) := by
  intro c i x hx
  simp only [splitHalves] at hx
  rcases List.mem_append.mp hx with hx | hx
  · left
    split at hx
    · simp at hx
    · rw [List.mem_singleton.mp hx]
      exact ⟨rfl, rfl⟩
  · right
    split at hx
    · simp at hx
    · rw [List.mem_singleton.mp hx]
      exact ⟨rfl, rfl⟩

theorem splitCue_within (md : ℚ) (mc : Nat) (c : Cue)
    (h : c.stop - c.start ≤ md ∧ c.text.length ≤ mc) :
    splitCue md mc c = [c] := by
  unfold splitCue
  rw [if_pos h]

theorem splitCue_over (md : ℚ) (mc : Nat) (c : Cue)
    (h : ¬(c.stop - c.start ≤ md ∧ c.text.length ≤ mc)) :
    splitCue md mc c = splitHalves c
      ((scanBreak c.text (max 1 (c.text.length / 2 - 15))
        (min (c.text.length - 1) (c.text.length / 2 + 15) -
          max 1 (c.text.length / 2 - 15))).getD (c.text.length / 2)) := by
  unfold splitCue
  rw [if_neg h]

theorem splitCue_mem_shape :
    ∀ (md : ℚ) (mc : Nat) (c : Cue) (x : Cue), x ∈ splitCue md mc c →
      x = c ∨
        (x.start = c.start ∧ x.stop = c.start + (c.stop - c.start) / 2) ∨
        (x.start = c.start + (c.stop - c.start) / 2 ∧ x.stop = c.stop) := by
  intro md mc c x hx
  by_cases h : c.stop - c.start ≤ md ∧ c.text.length ≤ mc
  · rw [splitCue_within md mc c h] at hx
    exact Or.inl (by simpa using hx)
  · rw [splitCue_over md mc c h] at hx
    exact Or.inr (splitHalves_mem_shape c _ x hx)

theorem splitCue_mem_bounds (md : ℚ) (mc : Nat) (c : Cue)
    (hv : c.start ≤ c.stop) :
    ∀ x ∈ splitCue md mc c,
      c.start ≤ x.start ∧ x.start ≤ x.stop ∧ x.stop ≤ c.stop := by
  intro x hx
  rcases splitCue_mem_shape md mc c x hx with hxc | ⟨h1, h2⟩ | ⟨h1, h2⟩
  · rw [hxc]
    exact ⟨le_refl _, hv, le_refl _⟩
  · rw [h1, h2]
    refine ⟨le_refl _, by linarith, by linarith⟩
  · rw [h1, h2]
    refine ⟨by linarith, by linarith, le_refl _⟩

theorem chain_pair_opt (P Q : Prop) [Decidable P] [Decidable Q] {x y : Cue}
    (h : x.stop ≤ y.start) :
    List.Chain' (fun a b => a.stop ≤ b.start)
      ((if P then [] else [x]) ++ (if Q then [] else [y])) := by
  by_cases hP : P <;> by_cases hQ : Q <;>
    simp [hP, hQ, List.chain'_cons, h]

theorem splitHalves_chain (c : Cue) (i : Nat) :
    List.Chain' (fun a b => a.stop ≤ b.start) (splitHalves c i) :=
  chain_pair_opt _ _ (le_refl _)

set_option maxHeartbeats 1000000 in
theorem splitCue_chain (md : ℚ) (mc : Nat) (c : Cue) :
    List.Chain' (fun a b => a.stop ≤ b.start) (splitCue md mc c) := by
  by_cases h : c.stop - c.start ≤ md ∧ c.text.length ≤ mc
  · rw [splitCue_within md mc c h]
    simp
  · rw [splitCue_over md mc c h]
    apply splitHalves_chain

/-! Helper lemmas about ordered concatenation and the full pipeline. -/

theorem chainFlat {α : Type} (f : α → List Cue) (lo hi : α → ℚ) :
    ∀ l : List α,
      (∀ a ∈ l, List.Chain' (fun x y => x.stop ≤ y.start) (f a)) →
      (∀ a ∈ l, ∀ c ∈ f a, lo a ≤ c.start ∧ c.start ≤ c.stop ∧ c.stop ≤ hi a) →
      List.Pairwise (fun a b => hi a ≤ lo b) l →
      List.Chain' (fun x y => x.stop ≤ y.start) (l.flatMap f) ∧
        ∀ c ∈ l.flatMap f, c.start ≤ c.stop := by
  intro l
  induction l with
  | nil => intro _ _ _; simp
  | cons a l' ih =>
    intro hch hbd hpw
    obtain ⟨hab, hpw'⟩ := List.pairwise_cons.mp hpw
    obtain ⟨ihc, ihv⟩ := ih (fun b hb => hch b (List.mem_cons_of_mem _ hb))
      (fun b hb => hbd b (List.mem_cons_of_mem _ hb)) hpw'
    rw [List.flatMap_cons]
    constructor
    · refine List.chain'_append.mpr ⟨hch a (List.mem_cons_self _ _), ihc, ?_⟩
      intro x hx y hy
      have hxa : x ∈ f a := by
        obtain ⟨hne, hg⟩ := List.mem_getLast?_eq_getLast hx
        rw [hg]
        exact List.getLast_mem hne
      have hya : y ∈ l'.flatMap f := List.mem_of_mem_head? hy
      obtain ⟨b, hb, hyb⟩ := List.mem_flatMap.mp hya
      have h1 : x.stop ≤ hi a := (hbd a (List.mem_cons_self _ _) x hxa).2.2
      have h2 : lo b ≤ y.start := (hbd b (List.mem_cons_of_mem _ hb) y hyb).1
      exact le_trans h1 (le_trans (hab b hb) h2)
    · intro c hc
      rcases List.mem_append.mp hc with hc | hc
      · exact (hbd a (List.mem_cons_self _ _) c hc).2.1
      · exact ihv c hc

theorem stopLeAll :
    ∀ (l : List Cue) (x : Cue),
      List.Chain' (fun a b => a.stop ≤ b.start) (x :: l) →
      (∀ c ∈ l, c.start ≤ c.stop) →
      ∀ b ∈ l, x.stop ≤ b.start := by
  intro l
  induction l with
  | nil => intro x _ _ b hb; simp at hb
  | cons y l' ih =>
    intro x hch hval b hb
    obtain ⟨h1, h2⟩ := List.chain'_cons'.mp hch
    have hxy : x.stop ≤ y.start := h1 y rfl
    rcases List.mem_cons.mp hb with hb | hb
    · rw [hb]; exact hxy
    · have hyv : y.start ≤ y.stop := hval y (List.mem_cons_self _ _)
      have := ih y h2 (fun c hc => hval c (List.mem_cons_of_mem _ hc)) b hb
      linarith

theorem chainValidPairwise :
    ∀ l : List Cue, (∀ c ∈ l, c.start ≤ c.stop) →
      List.Chain' (fun a b => a.stop ≤ b.start) l →
      List.Pairwise (fun a b => a.stop ≤ b.start) l := by
  intro l
  induction l with
  | nil => intro _ _; simp
  | cons x l' ih =>
    intro hval hch
    refine List.pairwise_cons.mpr ⟨?_, ?_⟩
    · exact stopLeAll l' x hch (fun c hc => hval c (List.mem_cons_of_mem _ hc))
    · exact ih (fun c hc => hval c (List.mem_cons_of_mem _ hc))
        (List.chain'_cons'.mp hch).2

theorem chainStarts :
    ∀ l : List Cue, (∀ c ∈ l, c.start ≤ c.stop) →
      List.Chain' (fun a b => a.stop ≤ b.start) l →
      List.Chain' (fun a b => a.start ≤ b.start) l := by
  intro l
  induction l with
  | nil => intro _ _; simp
  | cons x l' ih =>
    intro hval hch
    obtain ⟨h1, h2⟩ := List.chain'_cons'.mp hch
    refine List.chain'_cons'.mpr ⟨?_, ih (fun c hc => hval c (List.mem_cons_of_mem _ hc)) h2⟩
    intro y hy
    have hxv : x.start ≤ x.stop := hval x (List.mem_cons_self _ _)
    exact le_trans hxv (h1 y hy)

theorem mergeAuxGood (md jg : ℚ) :
    ∀ (l : List Cue) (prev : Cue),
      prev.start ≤ prev.stop →
      (∀ c ∈ l, c.start ≤ c.stop) →
      (∀ y ∈ l.head?, prev.stop ≤ y.start) →
      List.Chain' (fun a b => a.stop ≤ b.start) l →
      (∀ c ∈ mergeAux md jg prev l, c.start ≤ c.stop) ∧
        List.Chain' (fun a b => a.stop ≤ b.start) (mergeAux md jg prev l) := by
  intro l
  induction l with
  | nil =>
    intro prev hp _ _ _
    constructor
    · intro c hc
      have : c = prev := by simpa [mergeAux] using hc
      rw [this]; exact hp
    · simp [mergeAux]
  | cons seg rest ih =>
    intro prev hp hval hhead hch
    have hps : prev.stop ≤ seg.start := hhead seg rfl
    have hsv : seg.start ≤ seg.stop := hval seg (List.mem_cons_self _ _)
    obtain ⟨hsr, hch'⟩ := List.chain'_cons'.mp hch
    show (∀ c ∈ (if prev.stop - prev.start < md ∧ seg.start - prev.stop ≤ jg then
        mergeAux md jg (absorbCue prev seg) rest
        else prev :: mergeAux md jg seg rest), c.start ≤ c.stop) ∧
      List.Chain' _ (if prev.stop - prev.start < md ∧ seg.start - prev.stop ≤ jg then
        mergeAux md jg (absorbCue prev seg) rest
        else prev :: mergeAux md jg seg rest)
    split
    · refine ih (absorbCue prev seg) ?_
        (fun c hc => hval c (List.mem_cons_of_mem _ hc)) ?_ hch'
      · show prev.start ≤ seg.stop
        linarith
      · intro y hy
        show seg.stop ≤ y.start
        exact hsr y hy
    · obtain ⟨ihv, ihc⟩ := ih seg hsv
        (fun c hc => hval c (List.mem_cons_of_mem _ hc)) hsr hch'
      constructor
      · intro c hc
        rcases List.mem_cons.mp hc with hc | hc
        · rw [hc]; exact hp
        · exact ihv c hc
      · refine List.chain'_cons'.mpr ⟨?_, ihc⟩
        intro y hy
        have hmap := mergeAux_head_start md jg rest seg
        rw [Option.mem_def.mp hy] at hmap
        have : y.start = seg.start := by simpa using hmap
        rw [this]
        exact hps

theorem mergePassGood (md jg : ℚ) (l : List Cue)
    (hval : ∀ c ∈ l, c.start ≤ c.stop)
    (hch : List.Chain' (fun a b => a.stop ≤ b.start) l) :
    (∀ c ∈ mergePass md jg l, c.start ≤ c.stop) ∧
      List.Chain' (fun a b => a.stop ≤ b.start) (mergePass md jg l) := by
  cases l with
  | nil => constructor <;> simp [mergePass]
  | cons seg rest =>
    obtain ⟨h1, h2⟩ := List.chain'_cons'.mp hch
    exact mergeAuxGood md jg rest seg (hval seg (List.mem_cons_self _ _))
      (fun c hc => hval c (List.mem_cons_of_mem _ hc)) h1 h2

/-! Claim theorems. -/

/-- C1: for every chunk window `[start, end]` and every non-empty sentence
sequence, the cues produced by `distribute_time` tile the window
contiguously: the first cue starts at the chunk's start, each subsequent
cue starts at its predecessor's end, and the last cue's end is set to the
chunk's end exactly. -/
theorem C1_distribute_time_tiles (s e : ℚ) (sents : List (List Char))
    (h : sents ≠ []) :
    ((distribute_time s e sents).head?).map Cue.start = some s ∧
      List.Chain' (fun a b => b.start = a.stop) (distribute_time s e sents) ∧
      ((distribute_time s e sents).getLast?).map Cue.stop = some e :=
  ⟨distribute_head_start s e sents h, distribute_chain_eq s e sents,
    distribute_getLast_stop s e sents h⟩

/-- Witness for C1 at the window `[0, 1]` with one sentence. -/
theorem C1_distribute_time_tiles_witness :
    (["Hi".toList] : List (List Char)) ≠ [] ∧
      (((distribute_time 0 1 ["Hi".toList]).head?).map Cue.start = some 0 ∧
        List.Chain' (fun a b => b.start = a.stop)
          (distribute_time 0 1 ["Hi".toList]) ∧
        ((distribute_time 0 1 ["Hi".toList]).getLast?).map Cue.stop = some 1) :=
  ⟨by decide, C1_distribute_time_tiles 0 1 ["Hi".toList] (by decide)⟩

/-- C2 counterexample: the claimed result of
`segment("Hello world. This is a test.", 84)` keeps the sentence-ending
periods, but `split_sentences` does not return it — the primary regex
split consumes the punctuation as part of the delimiter. -/
theorem C2_segment_example_refuted :
    split_sentences ("Hello world. This is a test.".toList) 84 ≠
      ["Hello world.".toList, "This is a test.".toList] := by
  decide

/-- C2 amended: `split_sentences "Hello world. This is a test." 84`
returns the two fragments with their sentence-ending punctuation removed,
because the primary split pattern consumes `[.!?]+` as part of the
delimiter. -/
theorem C2_segment_example_actual :
    split_sentences ("Hello world. This is a test.".toList) 84 =
      ["Hello world".toList, "This is a test".toList] := by
  decide

attribute [local semireducible] Rat.mul Rat.inv Rat.add Rat.sub in
/-- C3 counterexample: a single chunk with a reversed window is not merely
clamped — after the duration floor, line 86 forces the last cue's end back
to the chunk's (earlier) end, so the pipeline emits a cue whose end is
before its start, and the claimed invariant `end ≥ start` fails. -/
theorem C3_pipeline_order_refuted :
    transcribe_pipeline [⟨1, 0, "Hi".toList⟩] (4/5) 6 84 =
        [⟨1, 0, "Hi".toList⟩] ∧
      ¬((1 : ℚ) ≤ 0) := by
  decide

/-- C3 amended: for chunk sequences whose windows are at least the 0.2 s
floor long and which are ordered without overlap (each chunk starts no
earlier than its predecessor ends), every cue produced by the pipeline
satisfies `end ≥ start` and the output sequence is non-decreasing in
`start`.  (The claim's inclusion of reversed and zero-length windows is
refuted by the counterexample.) -/
theorem C3_pipeline_order_amended (chunks : List Cue) (md mx : ℚ) (mc : Nat)
    (hwin : ∀ ch ∈ chunks, (1/5 : ℚ) ≤ ch.stop - ch.start)
    (hord : List.Pairwise (fun a b => a.stop ≤ b.start) chunks) :
    (∀ c ∈ transcribe_pipeline chunks md mx mc, c.start ≤ c.stop) ∧
      List.Chain' (fun a b => a.start ≤ b.start)
        (transcribe_pipeline chunks md mx mc) := by
  obtain ⟨hfc, hfv⟩ := chainFlat
    (fun ch => distribute_time ch.start ch.stop (split_sentences ch.text mc))
    Cue.start Cue.stop chunks
    (fun a _ => List.Chain'.imp (fun x y hxy => le_of_eq hxy.symm)
      (distribute_chain_eq a.start a.stop (split_sentences a.text mc)))
    (fun a ha c hc => distribute_mem_bounds a.start a.stop
      (split_sentences a.text mc) (hwin a ha) c hc)
    hord
  obtain ⟨hmv, hmc2⟩ := mergePassGood md (1/4) _ hfv hfc
  have hpw := chainValidPairwise _ hmv hmc2
  obtain ⟨hsc, hsv⟩ := chainFlat (splitCue mx mc) Cue.start Cue.stop
    (mergePass md (1/4)
      (chunks.flatMap (fun ch =>
        distribute_time ch.start ch.stop (split_sentences ch.text mc))))
    (fun a _ => splitCue_chain mx mc a)
    (fun a ha c hc => splitCue_mem_bounds mx mc a (hmv a ha) c hc)
    hpw
  exact ⟨hsv, chainStarts _ hsv hsc⟩

attribute [local semireducible] Rat.mul Rat.inv Rat.add Rat.sub in
/-- Witness for C3 (amended) on two ordered one-second chunks. -/
theorem C3_pipeline_order_amended_witness :
    ((∀ ch ∈ ([⟨0, 1, "Hi".toList⟩, ⟨1, 2, "Yo".toList⟩] : List Cue),
        (1/5 : ℚ) ≤ ch.stop - ch.start) ∧
      List.Pairwise (fun a b => a.stop ≤ b.start)
        ([⟨0, 1, "Hi".toList⟩, ⟨1, 2, "Yo".toList⟩] : List Cue)) ∧
      ((∀ c ∈ transcribe_pipeline
          [⟨0, 1, "Hi".toList⟩, ⟨1, 2, "Yo".toList⟩] (4/5) 6 84,
          c.start ≤ c.stop) ∧
        List.Chain' (fun a b => a.start ≤ b.start)
          (transcribe_pipeline
            [⟨0, 1, "Hi".toList⟩, ⟨1, 2, "Yo".toList⟩] (4/5) 6 84)) :=
  ⟨⟨by decide, by simp [List.pairwise_cons]⟩,
    C3_pipeline_order_amended _ (4/5) 6 84 (by decide)
      (by simp [List.pairwise_cons])⟩

/-- C4 counterexample: segmenting `"abc"` with `max_chars = 2` returns an
empty Sentence alongside the oversized word — when the first word of an
over-long fragment itself exceeds the limit, line 74 flushes the empty
buffer as `" ".join([])` — refuting the claim that every returned
Sentence is non-empty. -/
theorem C4_sentence_nonempty_refuted :
    split_sentences ("abc".toList) 2 = [([] : List Char), "abc".toList] ∧
      ([] : List Char) ∈ split_sentences ("abc".toList) 2 := by
  decide

/-- C4 amended: every Sentence returned by the segmenter is trimmed and
either has length at most `max_chars` or contains no whitespace (a single
word whose own length may exceed the limit).  The claim's non-emptiness
is dropped: an empty Sentence is emitted when the first word of an
over-long fragment exceeds the limit (see the counterexample). -/
theorem C4_sentence_bound_amended (text : List Char) (mc : Nat) :
    ∀ s ∈ split_sentences text mc,
      pyStrip s = s ∧ (s.length ≤ mc ∨ ∀ c ∈ s, pyIsSpace c = false) := by
  intro s hs
  simp only [split_sentences] at hs
  split at hs
  · simp at hs
  · obtain ⟨p0, _, hmem⟩ := List.mem_flatMap.mp hs
    split at hmem
    · simp at hmem
    · split at hmem
      · next hlen =>
        have hsp : s = pyStrip p0 := by simpa using hmem
        subst hsp
        exact ⟨pyStrip_trimmed p0, Or.inl hlen⟩
      · exact wrapAux_mem (pySplit (pyStrip p0)) [] 0 mc
          (pySplitAux_mem (pyStrip p0) [] (by simp)) (by simp)
          (by simp [joinSp]) (Or.inl (by simp)) s hmem

/-- Witness for C4 (amended) on a short two-word text. -/
theorem C4_sentence_bound_amended_witness :
    "Hi there".toList ∈ split_sentences ("Hi there".toList) 84 ∧
      (pyStrip ("Hi there".toList) = "Hi there".toList ∧
        (("Hi there".toList).length ≤ 84 ∨
          ∀ c ∈ "Hi there".toList, pyIsSpace c = false)) :=
  ⟨by decide, C4_sentence_bound_amended ("Hi there".toList) 84
    ("Hi there".toList) (by decide)⟩

attribute [local semireducible] Rat.mul Rat.inv Rat.add Rat.sub in
/-- C5: in the merge pass the first cue is appended as-is (its start is
the first output start), a two-cue sequence is absorbed into one exactly
when the first cue's duration is below `min_dur` and the gap is at most
`join_gap` (with the extended end and space-joined trimmed text), and the
concrete example `merge([{0,0.3,"Hi"},{0.4,3.0,"there"}], 0.8, 0.25)`
returns the single cue `{0, 3.0, "Hi there"}`. -/
theorem C5_merge_absorb (md jg : ℚ) :
    (∀ c1 c2 : Cue,
      mergePass md jg [c1, c2] =
          [⟨c1.start, c2.stop, pyStrip (c1.text ++ ' ' :: c2.text)⟩] ↔
        (c1.stop - c1.start < md ∧ c2.start - c1.stop ≤ jg)) ∧
    (∀ (c : Cue) (rest : List Cue),
      ((mergePass md jg (c :: rest)).head?).map Cue.start = some c.start) ∧
    mergePass (4/5) (1/4) [⟨0, 3/10, "Hi".toList⟩, ⟨2/5, 3, "there".toList⟩] =
      [⟨0, 3, "Hi there".toList⟩] := by
  refine ⟨?_, ?_, ?_⟩
  · intro c1 c2
    constructor
    · intro heq
      by_contra hcond
      have hout : mergePass md jg [c1, c2] = [c1, c2] := by
        show (if c1.stop - c1.start < md ∧ c2.start - c1.stop ≤ jg then
          mergeAux md jg (absorbCue c1 c2) []
          else c1 :: mergeAux md jg c2 []) = [c1, c2]
        rw [if_neg hcond]
        rfl
      rw [hout] at heq
      have := congrArg List.length heq
      simp at this
    · intro hcond
      show (if c1.stop - c1.start < md ∧ c2.start - c1.stop ≤ jg then
        mergeAux md jg (absorbCue c1 c2) []
        else c1 :: mergeAux md jg c2 []) = _
      rw [if_pos hcond]
      rfl
  · intro c rest
    exact mergeAux_head_start md jg rest c
  · decide

attribute [local semireducible] Rat.mul Rat.inv Rat.add Rat.sub in
/-- C6: evaluation of the split-point search at a cue whose search window
contains a bare semicolon.  The specification's break set includes the
semicolon, but the code's list contains the two-character string `"; "`,
which a single character can never equal, so the code falls back to the
character midpoint 10 even though the first spec break character sits at
index 8; the spec-modelled search splits at 8. -/
theorem C6_semicolon_ignored :
    splitCue 6 10 ⟨0, 1, "aaaaaaaa;aaaaaaaaaaaa".toList⟩ =
        splitHalves ⟨0, 1, "aaaaaaaa;aaaaaaaaaaaa".toList⟩ 10 ∧
      ("aaaaaaaa;aaaaaaaaaaaa".toList).getD 8 'x' = ';' ∧
      isBreakCharSpec ';' = true ∧ isBreakChar ';' = false ∧
      splitCueSpec 6 10 ⟨0, 1, "aaaaaaaa;aaaaaaaaaaaa".toList⟩ =
        splitHalves ⟨0, 1, "aaaaaaaa;aaaaaaaaaaaa".toList⟩ 8 ∧
      splitCue 6 10 ⟨0, 1, "aaaaaaaa;aaaaaaaaaaaa".toList⟩ ≠
        splitCueSpec 6 10 ⟨0, 1, "aaaaaaaa;aaaaaaaaaaaa".toList⟩ := by
  decide

attribute [local semireducible] Rat.mul Rat.inv Rat.add Rat.sub in
/-- C7 counterexample: after the split pass a cue can remain over
`max_dur` with splittable content: splitting `{0, 20, "hi there"}` with
`max_dur = 6` leaves `{10, 20, "there"}`, which still exceeds the
duration bound although its text has length 5 (neither length ≤ 2 nor
empty). -/
theorem C7_split_residual_refuted :
    splitPass 6 84 [⟨0, 20, "hi there".toList⟩] =
        [⟨0, 10, "hi".toList⟩, ⟨10, 20, "there".toList⟩] ∧
      ¬((20 : ℚ) - 10 ≤ 6) ∧ ("there".toList).length = 5 ∧
      ¬(5 ≤ 2) ∧ "there".toList ≠ ([] : List Char) := by
  decide

/-- C7 amended: after the split pass, every output cue either satisfies
both bounds or is one of the halves of an over-bounds input cue, with
exactly half its parent's duration; the pass is single-level, so such a
half may itself remain over the bounds even with splittable text. -/
theorem C7_split_residual_amended (md : ℚ) (mc : Nat) (l : List Cue) (x : Cue)
    (hx : x ∈ splitPass md mc l) :
    (x.stop - x.start ≤ md ∧ x.text.length ≤ mc) ∨
      ∃ c ∈ l, ¬(c.stop - c.start ≤ md ∧ c.text.length ≤ mc) ∧
        x ∈ splitCue md mc c ∧ x.stop - x.start = (c.stop - c.start) / 2 := by
  obtain ⟨c, hc, hmem⟩ := List.mem_flatMap.mp hx
  by_cases h : c.stop - c.start ≤ md ∧ c.text.length ≤ mc
  · rw [splitCue_within md mc c h] at hmem
    have hxc : x = c := by simpa using hmem
    subst hxc
    exact Or.inl h
  · right
    refine ⟨c, hc, h, hmem, ?_⟩
    have hmem2 := hmem
    rw [splitCue_over md mc c h] at hmem2
    rcases splitHalves_mem_shape c _ x hmem2 with ⟨h1, h2⟩ | ⟨h1, h2⟩
    · rw [h1, h2]
      ring
    · rw [h1, h2]
      ring

attribute [local semireducible] Rat.mul Rat.inv Rat.add Rat.sub in
/-- Witness for C7 (amended) at the counterexample's residual cue. -/
theorem C7_split_residual_amended_witness :
    (⟨10, 20, "there".toList⟩ : Cue) ∈
        splitPass 6 84 [⟨0, 20, "hi there".toList⟩] ∧
      (((20 : ℚ) - 10 ≤ 6 ∧ ("there".toList).length ≤ 84) ∨
        ∃ c ∈ ([⟨0, 20, "hi there".toList⟩] : List Cue),
          ¬(c.stop - c.start ≤ 6 ∧ c.text.length ≤ 84) ∧
            (⟨10, 20, "there".toList⟩ : Cue) ∈ splitCue 6 84 c ∧
            (20 : ℚ) - 10 = (c.stop - c.start) / 2) :=
  ⟨by decide, C7_split_residual_amended 6 84 [⟨0, 20, "hi there".toList⟩]
    ⟨10, 20, "there".toList⟩ (by decide)⟩

attribute [local semireducible] Rat.mul Rat.inv Rat.add Rat.sub in
/-- C8 counterexample: even on an ordered input cue sequence — starts
non-decreasing and every cue valid (`end ≥ start`) — the merge pass can
decrease the end of a retained cue relative to its value when first
appended: with `min_dur = 0.8` and `join_gap = 0.25`, the cue
`{0, 0.5, "a"}` (duration 0.5 < 0.8) absorbs the overlapping successor
`{0.1, 0.3, "b"}` (gap 0.1 − 0.5 = −0.4 ≤ 0.25), and its end drops from
0.5 to 0.3. -/
theorem C8_merge_end_decrease_refuted :
    List.Chain' (fun a b => a.start ≤ b.start)
        ([⟨0, 1/2, "a".toList⟩, ⟨1/10, 3/10, "b".toList⟩] : List Cue) ∧
      (∀ c ∈ ([⟨0, 1/2, "a".toList⟩, ⟨1/10, 3/10, "b".toList⟩] : List Cue),
          c.start ≤ c.stop) ∧
      mergePass (4/5) (1/4)
          [⟨0, 1/2, "a".toList⟩, ⟨1/10, 3/10, "b".toList⟩] =
        [⟨0, 3/10, "a b".toList⟩] ∧
      ¬((1/2 : ℚ) ≤ 3/10) :=
  ⟨by norm_num [List.chain'_cons], by decide, by decide, by decide⟩

/-- C8 amended: the merge pass never increases the cue count, and for
input sequences of valid, non-overlapping cues (each cue's start at or
after its predecessor's end) the merge decomposes the input into
consecutive non-empty runs such that each output cue's end is at least
the end its run's first cue had when first appended.  Without the
non-overlap hypothesis the end of a retained cue can decrease (see the
counterexample). -/
theorem C8_merge_safety_amended (md jg : ℚ) (segs : List Cue) :
    (mergePass md jg segs).length ≤ segs.length ∧
      ((∀ c ∈ segs, c.start ≤ c.stop) →
        List.Chain' (fun a b => a.stop ≤ b.start) segs →
        ∃ runs : List (List Cue), (∀ r ∈ runs, r ≠ []) ∧ runs.flatten = segs ∧
          mergePass md jg segs = runs.map mergeRun1 ∧
          ∀ r ∈ runs, ∀ c, r.head? = some c → c.stop ≤ (mergeRun1 r).stop) := by
  constructor
  · cases segs with
    | nil => simp [mergePass]
    | cons seg rest =>
      show (mergeAux md jg seg rest).length ≤ rest.length + 1
      exact mergeAux_length md jg rest seg
  · intro hval hch
    obtain ⟨runs, h1, h2, h3⟩ := mergePass_runs md jg segs
    refine ⟨runs, h1, h2, h3, ?_⟩
    intro r hr c hc
    cases r with
    | nil => simp at hc
    | cons c0 cs =>
      have hc0 : c0 = c := by simpa using hc
      subst hc0
      show c0.stop ≤ (mergeRun1 (c0 :: cs)).stop
      have hstop : (mergeRun1 (c0 :: cs)).stop = (cs.getLastD c0).stop :=
        foldl_absorb_stop cs c0
      rw [hstop]
      have hchf : List.Chain' (fun a b => a.stop ≤ b.start) runs.flatten := by
        rw [h2]
        exact hch
      apply chainLastD
      · exact chain_of_flatten runs hchf _ hr
      · intro x hx
        apply hval
        rw [← h2]
        exact List.mem_flatten.mpr ⟨c0 :: cs, hr, hx⟩

attribute [local semireducible] Rat.mul Rat.inv Rat.add Rat.sub in
/-- Witness for C8 (amended) on two valid, non-overlapping cues. -/
theorem C8_merge_safety_amended_witness :
    ((∀ c ∈ ([⟨0, 1/2, "x".toList⟩, ⟨1/2, 2, "y".toList⟩] : List Cue),
        c.start ≤ c.stop) ∧
      List.Chain' (fun a b => a.stop ≤ b.start)
        ([⟨0, 1/2, "x".toList⟩, ⟨1/2, 2, "y".toList⟩] : List Cue)) ∧
      ((mergePass (4/5) (1/4)
          [⟨0, 1/2, "x".toList⟩, ⟨1/2, 2, "y".toList⟩]).length ≤
        ([⟨0, 1/2, "x".toList⟩, ⟨1/2, 2, "y".toList⟩] : List Cue).length ∧
      ∃ runs : List (List Cue), (∀ r ∈ runs, r ≠ []) ∧
        runs.flatten = [⟨0, 1/2, "x".toList⟩, ⟨1/2, 2, "y".toList⟩] ∧
        mergePass (4/5) (1/4) [⟨0, 1/2, "x".toList⟩, ⟨1/2, 2, "y".toList⟩] =
          runs.map mergeRun1 ∧
        ∀ r ∈ runs, ∀ c, r.head? = some c → c.stop ≤ (mergeRun1 r).stop) :=
  ⟨⟨by decide, by simp [List.chain'_cons]⟩,
    ⟨(C8_merge_safety_amended (4/5) (1/4)
        [⟨0, 1/2, "x".toList⟩, ⟨1/2, 2, "y".toList⟩]).1,
      (C8_merge_safety_amended (4/5) (1/4)
        [⟨0, 1/2, "x".toList⟩, ⟨1/2, 2, "y".toList⟩]).2
        (by decide) (by simp [List.chain'_cons])⟩⟩

/-- C9: the split pass is the identity on any cue sequence in which every
cue already satisfies the duration and length bounds. -/
theorem C9_split_identity (md : ℚ) (mc : Nat) (l : List Cue)
    (h : ∀ c ∈ l, c.stop - c.start ≤ md ∧ c.text.length ≤ mc) :
    splitPass md mc l = l := by
  induction l with
  | nil => rfl
  | cons c rest ih =>
    have hstep : splitPass md mc (c :: rest) =
        splitCue md mc c ++ splitPass md mc rest := by
      simp [splitPass]
    rw [hstep, splitCue_within md mc c (h c (List.mem_cons_self _ _)),
      ih (fun x hx => h x (List.mem_cons_of_mem _ hx))]
    rfl

attribute [local semireducible] Rat.mul Rat.inv Rat.add Rat.sub in
/-- Witness for C9 on a one-second in-bounds cue. -/
theorem C9_split_identity_witness :
    (∀ c ∈ ([⟨0, 1, "ok".toList⟩] : List Cue),
        c.stop - c.start ≤ 6 ∧ c.text.length ≤ 84) ∧
      splitPass 6 84 [⟨0, 1, "ok".toList⟩] = [⟨0, 1, "ok".toList⟩] :=
  ⟨by decide, C9_split_identity 6 84 [⟨0, 1, "ok".toList⟩] (by decide)⟩

/-- C10: for inputs whose texts are all non-empty and trimmed, the merge
pass partitions the input into consecutive non-empty runs whose
concatenation is the input; each output cue carries its run's first
start, its run's last end, and the run's texts joined by single
spaces. -/
theorem C10_merge_runs (md jg : ℚ) (segs : List Cue)
    (htxt : ∀ c ∈ segs, c.text ≠ [] ∧ pyStrip c.text = c.text) :
    ∃ runs : List (List Cue), (∀ r ∈ runs, r ≠ []) ∧ runs.flatten = segs ∧
      mergePass md jg segs = runs.map (fun r =>
        ⟨(r.headD ⟨0, 0, []⟩).start, (r.getLastD ⟨0, 0, []⟩).stop,
          joinSp (r.map Cue.text)⟩) := by
  obtain ⟨runs, h1, h2, h3⟩ := mergePass_runs md jg segs
  refine ⟨runs, h1, h2, ?_⟩
  rw [h3]
  apply List.map_congr_left
  intro r hr
  cases r with
  | nil => exact absurd rfl (h1 [] hr)
  | cons c0 cs =>
    have hmem : ∀ x ∈ c0 :: cs, x.text ≠ [] ∧ pyStrip x.text = x.text := by
      intro x hx
      apply htxt
      rw [← h2]
      exact List.mem_flatten.mpr ⟨c0 :: cs, hr, hx⟩
    have hstart := foldl_absorb_start cs c0
    have hstop := foldl_absorb_stop cs c0
    have htext := foldl_absorb_text cs c0 (hmem c0 (List.mem_cons_self _ _)).1
      (hmem c0 (List.mem_cons_self _ _)).2
      (fun x hx => hmem x (List.mem_cons_of_mem _ hx))
    show cs.foldl absorbCue c0 = _
    refine Cue.ext ?_ ?_ ?_
    · rw [hstart]
      rfl
    · rw [hstop, List.getLastD_cons]
    · rw [htext]

attribute [local semireducible] Rat.mul Rat.inv Rat.add Rat.sub in
/-- Witness for C10 on two cues with non-empty trimmed texts. -/
theorem C10_merge_runs_witness :
    (∀ c ∈ ([⟨0, 3/10, "Hi".toList⟩, ⟨2/5, 3, "yo".toList⟩] : List Cue),
        c.text ≠ [] ∧ pyStrip c.text = c.text) ∧
      ∃ runs : List (List Cue), (∀ r ∈ runs, r ≠ []) ∧
        runs.flatten = [⟨0, 3/10, "Hi".toList⟩, ⟨2/5, 3, "yo".toList⟩] ∧
        mergePass (4/5) (1/4)
            [⟨0, 3/10, "Hi".toList⟩, ⟨2/5, 3, "yo".toList⟩] =
          runs.map (fun r =>
            ⟨(r.headD ⟨0, 0, []⟩).start, (r.getLastD ⟨0, 0, []⟩).stop,
              joinSp (r.map Cue.text)⟩) :=
  ⟨by decide, C10_merge_runs (4/5) (1/4)
    [⟨0, 3/10, "Hi".toList⟩, ⟨2/5, 3, "yo".toList⟩] (by decide)⟩

end Voxtral
